import Mathlib

/-!
Shallow embedding of the maze solver (grid model, flood relaxation solver,
priority best-first solver) together with proofs about the behaviour of the
embedded code.

Machine integers: the source uses `usize` with explicitly saturating
(`saturating_mul`/`saturating_add`) and wrapping (`wrapping_sub`) arithmetic in
the index computations.  We model `usize` values as `Nat` and make the
saturation/wrap explicit at exactly the places the source uses them, with the
64-bit modulus `USIZE`.
-/

namespace MazeSrc

/-- Modulus of the machine word type used for indices (64-bit `usize`). -/
def USIZE : Nat := 2 ^ 64

/-- Saturating addition on `usize` values. -/
def satAdd (a b : Nat) : Nat := min (a + b) (USIZE - 1)

/-- Saturating multiplication on `usize` values. -/
def satMul (a b : Nat) : Nat := min (a * b) (USIZE - 1)

/-- Wrapping subtraction of 1 on a `usize` value (assumed `< USIZE`):
`0` wraps around to `USIZE - 1`. -/
def wrapSub1 (a : Nat) : Nat := (a + (USIZE - 1)) % USIZE

/-- Bitset of up to four cardinal directions, as in the source a wrapper
around a small unsigned integer (`struct Dir(u8)`). -/
structure Dir where
  bits : Nat
deriving DecidableEq, Repr

/-- Bitwise-or of direction sets (the `BitOr` impl of the source). -/
instance : HOr Dir Dir Dir := ⟨fun a b => ⟨a.bits ||| b.bits⟩⟩

namespace Dir

def NONE : Dir := ⟨0⟩
def LEFT : Dir := ⟨1⟩
def UP : Dir := ⟨2⟩
def RIGHT : Dir := ⟨4⟩
def DOWN : Dir := ⟨8⟩
def ANY : Dir := ⟨1 ||| 2 ||| 4 ||| 8⟩

/-- Test whether every flag of `other` is present in `self`
(`self.0 & other == other`). -/
def has_all (self other : Dir) : Bool := decide (self.bits &&& other.bits = other.bits)

/-- Directions in which at least one step is needed to get from `from` to
`to`.  Note the source maps `from_x < to_x` (Ordering::Less) to `LEFT` and
`from_x > to_x` to `RIGHT`, and likewise Less on `y` to `UP`. -/
def vec (f t : Nat × Nat) : Dir :=
  let h := if f.1 < t.1 then LEFT else if t.1 < f.1 then RIGHT else NONE
  let v := if f.2 < t.2 then UP else if t.2 < f.2 then DOWN else NONE
  h ||| v

/-- Rotate the direction set one step left
(`down = (b & 1) << 3; b >>= 1; b |= down`). -/
def left (d : Dir) : Dir := ⟨((d.bits &&& 1) <<< 3) ||| (d.bits >>> 1)⟩

/-- Rotate the direction set one step right
(`l = (b & 8) >> 3; b <<= 1; b |= l; b &= 0xf`);
the intermediate u8 overflow of `b << 1` is erased by the final `& 0xf`. -/
def right (d : Dir) : Dir := ⟨(((d.bits &&& 8) >>> 3) ||| (d.bits <<< 1)) &&& 15⟩

/-- One inner `while` loop of `min_rotation`: count rotation steps until all
bits of `o` have been cleared.  The source loop always terminates within 4
steps (the anchor is a single flag, whose rotations visit all four flags, and
`o < 16`); fuel 8 is strictly more than enough, so the embedding agrees with
the source on every input the source reaches. -/
def countLoop (step : Dir → Dir) : Nat → Dir → Nat → Nat
  | 0, _, _ => 0
  | fuel + 1, d, o =>
    if o = 0 then 0
    else
      let d2 := step d
      countLoop step fuel d2 (o &&& (255 ^^^ d2.bits)) + 1

/-- Minimal number of rotations so that at least one encoded direction matches
every given direction at least once (`Dir::min_rotation`). -/
def min_rotation (self other : Dir) : Nat :=
  [LEFT, RIGHT, UP, DOWN].foldl
    (fun mn dir =>
      if self.has_all dir then
        let o := other.bits &&& (255 ^^^ dir.bits)
        min (min mn (countLoop Dir.left 8 dir o)) (countLoop Dir.right 8 dir o)
      else mn)
    4

end Dir

/-- Single field in the maze. -/
inductive Field where
  | Empty : Field
  | Wall : Field
  | Calculated : Dir → Nat → Field
deriving DecidableEq, Repr

/-- Whole maze representation: flattened fields plus the stored width. -/
structure Maze where
  maze : List Field
  w : Nat
deriving DecidableEq, Repr

namespace Maze

/-- Maps a coordinate to a field index; on overflow saturates to a too-big
index which resolves to Wall (`y.saturating_mul(self.w).saturating_add(x)`). -/
def idx (m : Maze) (x y : Nat) : Nat := satAdd (satMul y m.w) x

/-- Maps a field index to coordinates (`(idx % self.w, idx / self.w)`). -/
def coords (m : Maze) (i : Nat) : Nat × Nat := (i % m.w, i / m.w)

/-- Index of the field in the given direction (wrapping subtraction gives an
invalid huge coordinate at the low edges, resolving to Wall). -/
def in_dir_idx (m : Maze) (i : Nat) (d : Dir) : Nat :=
  let c := m.coords i
  let p :=
    if d = Dir.UP then (c.1, wrapSub1 c.2)
    else if d = Dir.DOWN then (c.1, c.2 + 1)
    else if d = Dir.LEFT then (wrapSub1 c.1, c.2)
    else if d = Dir.RIGHT then (c.1 + 1, c.2)
    else c
  m.idx p.1 p.2

/-- Field in the given direction from the given one, Wall if there is no such
field (`self.maze.get(..).copied().unwrap_or(Field::Wall)`). -/
def in_dir (m : Maze) (i : Nat) (d : Dir) : Field :=
  (m.maze.get? (m.in_dir_idx i d)).getD Field.Wall

/-- Field at the given coordinate, Wall if there is no such field. -/
def field (m : Maze) (x y : Nat) : Field :=
  (m.maze.get? (m.idx x y)).getD Field.Wall

end Maze

/-- Mapping of one input byte to a field: only the characters 0 and 1 are
accepted, anything else panics in the source (modelled as `none`). -/
def parseField (c : Char) : Option Field :=
  if c = '0' then some Field.Wall
  else if c = '1' then some Field.Empty
  else none

/-- Creation of a maze from the input lines (`Maze::from_input`): the first
`y` lines are taken, all their characters are concatenated and each is mapped
to a field; `none` models the panic on an invalid character. -/
def Maze.from_input (x y : Nat) (input : List (List Char)) : Option Maze :=
  (((input.take y).flatten).mapM parseField).map (fun m => ⟨m, x⟩)

namespace Flood

/-- Merge step of the direction loop inside `update_field`: combine the best
candidate so far with the candidate computed from one direction.  The guard
order mirrors the source match arms exactly. -/
def update_step (best : Dir × Nat) (dir : Dir) (updated : Option Nat) : Dir × Nat :=
  match updated with
  | none => best
  | some ncost =>
    if best.1 = Dir.NONE then (dir, ncost)
    else if best.2 = ncost then (best.1 ||| dir, best.2)
    else if ncost < best.2 then (dir, ncost)
    else best

/-- Candidate cost reachable through one direction: the neighbour must be
Calculated, and entering costs one extra unless the neighbour's arrival set
already contains the direction. -/
def dir_candidate (input : Maze) (i : Nat) (dir : Dir) : Option Nat :=
  match input.in_dir i dir with
  | Field.Wall => none
  | Field.Empty => none
  | Field.Calculated pdir cost => some (cost + (if pdir.has_all dir then 0 else 1))

/-- New cost of a single field with the directions from which the best value
is achievable (`flood::update_field`). -/
def update_field (input : Maze) (i : Nat) : Dir × Nat :=
  if (input.maze.get? i).getD Field.Wall = Field.Wall then (Dir.NONE, 0)
  else
    [Dir.UP, Dir.DOWN, Dir.LEFT, Dir.RIGHT].foldl
      (fun best dir => update_step best dir (dir_candidate input i dir))
      (Dir.NONE, 0)

/-- Per-cell write of one iteration: given the candidate produced by
`update_field` and the current value of the cell, produce the new value of the
cell in the back buffer together with the recorded change (the match arms of
`flood::iteration`, in source order). -/
def apply_update (upd : Dir × Nat) (cur : Field) : Field × Option Nat :=
  if upd.1 = Dir.NONE then (cur, none)
  else
    match cur with
    | Field.Calculated pdir pcost =>
      if upd.2 = pcost then
        if ¬ pdir.has_all upd.1 then (Field.Calculated (upd.1 ||| pdir) upd.2, some upd.2)
        else (Field.Calculated upd.1 upd.2, none)
      else if upd.2 < pcost then (Field.Calculated upd.1 upd.2, some upd.2)
      else (cur, none)
    | Field.Empty => (Field.Calculated upd.1 upd.2, some upd.2)
    | Field.Wall => (cur, none)

/-- Value written to cell `i` of the back buffer by one iteration, together
with the recorded change. -/
def cell_update (input : Maze) (i : Nat) : Field × Option Nat :=
  apply_update (update_field input i) ((input.maze.get? i).getD Field.Wall)

/-- One full iteration (`flood::iteration` followed by the buffer swap of
`flood`): the new field list and the list of recorded changes.  The source
writes every index of the back buffer and of the updates buffer, so the
functional reading is a map over all indices. -/
def iteration (input : Maze) : List Field × List (Option Nat) :=
  ((List.range input.maze.length).map fun i => (cell_update input i).1,
   (List.range input.maze.length).map fun i => (cell_update input i).2)

/-- Minimum over the recorded per-cell changes
(`updates.iter().copied().filter_map(ident).min()`). -/
def minChanged (updates : List (Option Nat)) : Option Nat :=
  (updates.filterMap id).foldl
    (fun acc c => match acc with | none => some c | some b => some (min b c)) none

/-- Stop predicate of the flood loop (`flood::is_done`). -/
def is_done (exitF : Field) (updates : List (Option Nat)) : Bool :=
  match minChanged updates, exitF with
  | none, _ => true
  | some best, Field.Calculated _ e => decide (e ≤ best)
  | _, _ => false

/-- The while loop of `flood`, with explicit fuel: `none` means the fuel ran
out before the stop predicate held (the source would still be looping). -/
def floodLoop (x y : Nat) : Nat → Maze → List (Option Nat) → Option Maze
  | 0, m, upd => if is_done (m.field x y) upd then some m else none
  | fuel + 1, m, upd =>
    if is_done (m.field x y) upd then some m
    else
      let r := iteration m
      floodLoop x y fuel ⟨r.1, m.w⟩ r.2

/-- The flood search algorithm (`flood::flood`), with explicit fuel for the
while loop.  The updates buffer starts out all `Some(0)` as in the source. -/
def flood (fuel : Nat) (m : Maze) (x y : Nat) : Option Maze :=
  floodLoop x y fuel m (List.replicate m.maze.length (some 0))

end Flood

namespace AStarM

/-- Item stored on the priority queue. -/
structure QueueItem where
  cost : Nat
  idx : Nat
deriving DecidableEq, Repr

/-- The Ord instance of the source compares `(Reverse(cost), idx)`: this is
the Boolean version of that (non-strict) order. -/
def qle (a b : QueueItem) : Bool :=
  decide (b.cost < a.cost) || (decide (a.cost = b.cost) && decide (a.idx ≤ b.idx))

/-- Maximum of a nonempty collection of queue items under the source order. -/
def maxItem : QueueItem → List QueueItem → QueueItem
  | q, [] => q
  | q, r :: rs => maxItem (if qle q r then r else q) rs

/-- Pop of the max-heap: removes and returns a greatest element with respect
to the source order (the behaviour Rust's BinaryHeap::pop guarantees; the
order is total and two items comparing equal are identical records). -/
def popMax (l : List QueueItem) : Option (QueueItem × List QueueItem) :=
  match l with
  | [] => none
  | q :: qs =>
    let m := maxItem q qs
    some (m, l.erase m)

/-- State of the priority solver: the maze, the queue contents and the exit
coordinates. -/
structure AState where
  maze : Maze
  queue : List QueueItem
  exit : Nat × Nat
deriving DecidableEq, Repr

/-- Construction of the initial state (`AStar::new`): every Calculated field
is enqueued with its heuristic-adjusted priority.  Note the source passes the
exit first and the cell coordinates second to `Dir::vec` here. -/
def new (m : Maze) (x y : Nat) : AState :=
  let queue := (List.range m.maze.length).filterMap fun i =>
    match m.maze.get? i with
    | some (Field.Calculated dir cost) =>
      some ⟨cost + dir.min_rotation (Dir.vec (x, y) (m.coords i)), i⟩
    | _ => none
  ⟨m, queue, (x, y)⟩

/-- Re-enqueue of a field (`AStar::enqueue`): pushed only when the field is
Calculated, with priority cost plus minimal rotations towards the exit. -/
def enqueue (s : AState) (i : Nat) : AState :=
  match (s.maze.maze.get? i).getD Field.Wall with
  | Field.Calculated dir cost =>
    { s with queue := ⟨cost + dir.min_rotation (Dir.vec (s.maze.coords i) s.exit), i⟩ :: s.queue }
  | _ => s

/-- Relaxation of one direction pair `(from, to)` from the popped field
(the body of the `for` loop in `AStar::run`); `field` is the value of the
popped cell read before the loop. -/
def relax (fld : Field) (i : Nat) (s : AState) (p : Dir × Dir) : AState :=
  match fld with
  | Field.Calculated dir cost =>
    let c := cost + (if dir.has_all p.1 then 0 else 1)
    let next := s.maze.in_dir_idx i p.2
    match (s.maze.maze.get? next).getD Field.Wall with
    | Field.Calculated d pcost =>
      if pcost = c then
        enqueue { s with maze := ⟨s.maze.maze.set next (Field.Calculated (d ||| p.1) c), s.maze.w⟩ } next
      else if c < pcost then
        enqueue { s with maze := ⟨s.maze.maze.set next (Field.Calculated p.1 c), s.maze.w⟩ } next
      else s
    | Field.Empty =>
      enqueue { s with maze := ⟨s.maze.maze.set next (Field.Calculated p.1 c), s.maze.w⟩ } next
    | Field.Wall => s
  | _ => s

/-- Result of one trip around the while loop of `AStar::run`: either the
returned maze or the state for the next trip. -/
inductive StepRes where
  | done : Maze → StepRes
  | cont : AState → StepRes
deriving DecidableEq, Repr

/-- One trip around the while loop of `AStar::run`: pop (empty queue returns
the maze), relax all four direction pairs, then return the maze if the exit
has become Calculated. -/
def step (s : AState) : StepRes :=
  match popMax s.queue with
  | none => .done s.maze
  | some (q, rest) =>
    let fld := (s.maze.maze.get? q.idx).getD Field.Wall
    let s2 := [(Dir.LEFT, Dir.RIGHT), (Dir.RIGHT, Dir.LEFT),
               (Dir.UP, Dir.DOWN), (Dir.DOWN, Dir.UP)].foldl
      (relax fld q.idx) { s with queue := rest }
    match s2.maze.field s2.exit.1 s2.exit.2 with
    | Field.Calculated _ _ => .done s2.maze
    | _ => .cont s2

/-- The while loop of `AStar::run`, with explicit fuel: `none` means the loop
was still running when the fuel ran out. -/
def run : Nat → AState → Option Maze
  | 0, _ => none
  | fuel + 1, s =>
    match step s with
    | .done m => some m
    | .cont s2 => run fuel s2

/-- The A* search algorithm (`astar::astar`), with explicit fuel. -/
def astar (fuel : Nat) (m : Maze) (x y : Nat) : Option Maze :=
  run fuel (new m x y)

end AStarM

/-- The maze handed to the solver by `maze::main`: the parsed maze with the
field at coordinate (0, 1) overwritten by `Calculated(ANY, 0)`.  The source
unwraps `field_mut(0, 1)`, so `none` models the panic when that coordinate has
no backing cell. -/
def seededMaze (x y : Nat) (input : List (List Char)) : Option Maze :=
  (Maze.from_input x y input).bind fun m =>
    if m.idx 0 1 < m.maze.length
    then some ⟨m.maze.set (m.idx 0 1) (Field.Calculated Dir.ANY 0), m.w⟩
    else none

/-- Printed outcome of `maze::main`. -/
inductive Output where
  | unreachable : Output
  | invalid : Output
  | cost : Nat → Output
deriving DecidableEq, Repr

/-- The body of `maze::main` (with pre-parsed dimensions, as in the source):
build the maze, seed entry (0, 1), run the given calculator towards exit
`(x - 1, y - 2)` and read the exit field of the returned maze. -/
def maze_main (x y : Nat) (input : List (List Char))
    (calculator : Maze → Nat → Nat → Maze) : Option Output :=
  (seededMaze x y input).map fun m =>
    match (calculator m (x - 1) (y - 2)).field (x - 1) (y - 2) with
    | Field.Empty => Output.unreachable
    | Field.Wall => Output.invalid
    | Field.Calculated _ c => Output.cost c

/-!
Support definitions used only to state claims: a spec-side notion of path
existence in the grid, the spec-side amended direction mapping, and the
concrete inputs appearing in counterexamples.
-/

/-- Passability of a coordinate for the purpose of stating path existence:
inside the rectangle spanned by the stored width and the derived height, and
not a Wall. -/
def passable (m : Maze) (h : Nat) (p : Nat × Nat) : Bool :=
  decide (p.1 < m.w) && decide (p.2 < h) && decide (m.field p.1 p.2 ≠ Field.Wall)

/-- The four orthogonal neighbours of a coordinate (coordinates at the low
edges simply have fewer neighbours). -/
def neighbors4 (p : Nat × Nat) : List (Nat × Nat) :=
  [(p.1 + 1, p.2), (p.1, p.2 + 1)]
    ++ (if p.1 = 0 then [] else [(p.1 - 1, p.2)])
    ++ (if p.2 = 0 then [] else [(p.1, p.2 - 1)])

/-- Bounded closure of a coordinate set under passable orthogonal steps. -/
def reachN (m : Maze) (h : Nat) : Nat → List (Nat × Nat) → List (Nat × Nat)
  | 0, s => s
  | n + 1, s => reachN m h n ((s ++ (s.flatMap neighbors4).filter (passable m h)).dedup)

/-- Path existence between two coordinates through passable cells under the
standard orthogonal adjacency, as the spec describes paths through the maze
(the number of closure rounds is capped by the cell count, enough to reach
every connected coordinate). -/
def hasPath (m : Maze) (a b : Nat × Nat) : Bool :=
  let h := m.maze.length / m.w
  decide (b ∈ reachN m h m.maze.length (if passable m h a then [a] else []))

/-- Direction mapping as the amended claim words it: LEFT when the target
column is larger, RIGHT when smaller, UP when the target row is larger, DOWN
when smaller (the exact reverse of the naming the original claim uses). -/
def vecAmendedSpec (f t : Nat × Nat) : Dir :=
  let h := if f.1 > t.1 then Dir.RIGHT else if f.1 < t.1 then Dir.LEFT else Dir.NONE
  let v := if f.2 > t.2 then Dir.DOWN else if f.2 < t.2 then Dir.UP else Dir.NONE
  h ||| v

/-- Input rows of the maze on which the two solvers disagree: a 5 by 4 maze
with a genuine corridor from the seeded entry (0, 1) to the exit (4, 2). -/
def c1rows : List (List Char) :=
  [['1','1','1','0','1'],
   ['1','1','1','0','1'],
   ['0','0','1','1','1'],
   ['0','0','0','0','0']]

/-- The maze `maze::main` hands to the solver for `c1rows`. -/
def c1maze : Maze :=
  ⟨[Field.Empty, Field.Empty, Field.Empty, Field.Wall, Field.Empty,
    Field.Calculated Dir.ANY 0, Field.Empty, Field.Empty, Field.Wall, Field.Empty,
    Field.Wall, Field.Wall, Field.Empty, Field.Empty, Field.Empty,
    Field.Wall, Field.Wall, Field.Wall, Field.Wall, Field.Wall], 5⟩

/-- A 2 by 2 maze whose backing array shows the coordinate wrap-around:
coordinate (2, 0) lies outside the grid but flattens to index 2, the cell at
coordinate (0, 1). -/
def c3maze : Maze := ⟨[Field.Wall, Field.Wall, Field.Empty, Field.Wall], 2⟩

/-- A tiny grid on which the priority solver never terminates: two adjacent
cells, both Calculated with cost 0 and the full direction set, re-enqueue each
other forever through the equal-cost tie branch. -/
def pingMaze : Maze := ⟨[Field.Calculated Dir.ANY 0, Field.Calculated Dir.ANY 0], 2⟩

/-- State reached after one trip of the priority solver loop on `pingMaze`
(the maze is unchanged; the queue now holds two copies of the entry for
cell 1). -/
def pingS1 : AStarM.AState := ⟨pingMaze, [⟨1, 1⟩, ⟨1, 1⟩], (0, 1)⟩

/-- Grid used in the flood monotonicity counterexample: the centre cell of a
1-wide column is Calculated with two arrival directions, and the recomputation
from its single Calculated neighbour shrinks the set to one direction at the
same cost. -/
def c6maze : Maze :=
  ⟨[Field.Calculated Dir.UP 3, Field.Calculated (Dir.UP ||| Dir.DOWN) 3, Field.Wall], 1⟩

/-!
Helper lemmas shared by the claim theorems.
-/

/-- Unfolding of one continued trip of the priority solver loop. -/
theorem run_cont {s s2 : AStarM.AState} (h : AStarM.step s = AStarM.StepRes.cont s2)
    (n : Nat) : AStarM.run (n + 1) s = AStarM.run n s2 := by
  simp [AStarM.run, h]

/-- Characterisation of the Boolean queue order. -/
theorem qle_iff (a b : AStarM.QueueItem) :
    AStarM.qle a b = true ↔ (b.cost < a.cost ∨ (a.cost = b.cost ∧ a.idx ≤ b.idx)) := by
  simp [AStarM.qle, Bool.or_eq_true, Bool.and_eq_true, decide_eq_true_iff]

/-- The queue order is transitive. -/
theorem qle_trans {a b c : AStarM.QueueItem}
    (h1 : AStarM.qle a b = true) (h2 : AStarM.qle b c = true) : AStarM.qle a c = true := by
  rw [qle_iff] at h1 h2 ⊢
  omega

/-- The queue order is reflexive. -/
theorem qle_refl (a : AStarM.QueueItem) : AStarM.qle a a = true := by
  rw [qle_iff]; omega

/-- The element selected by `maxItem` dominates the seed and every listed
element. -/
theorem maxItem_ge : ∀ (rs : List AStarM.QueueItem) (q : AStarM.QueueItem),
    AStarM.qle q (AStarM.maxItem q rs) = true ∧
      ∀ r ∈ rs, AStarM.qle r (AStarM.maxItem q rs) = true := by
  intro rs
  induction rs with
  | nil => intro q; exact ⟨qle_refl q, by intro r hr; cases hr⟩
  | cons r rs ih =>
    intro q
    by_cases h : AStarM.qle q r = true
    · have := ih r
      refine ⟨?_, ?_⟩
      · simpa [AStarM.maxItem, h] using qle_trans h (this).1
      · intro p hp
        rcases List.mem_cons.mp hp with rfl | hp
        · simpa [AStarM.maxItem, h] using (this).1
        · simpa [AStarM.maxItem, h] using (this).2 p hp
    · have := ih q
      have hrq : AStarM.qle r q = true := by
        rw [qle_iff] at h ⊢; omega
      refine ⟨?_, ?_⟩
      · simpa [AStarM.maxItem, h] using (this).1
      · intro p hp
        rcases List.mem_cons.mp hp with rfl | hp
        · simpa [AStarM.maxItem, h] using qle_trans hrq (this).1
        · simpa [AStarM.maxItem, h] using (this).2 p hp

/-- The popped element dominates every element of the queue. -/
theorem popMax_ge {l : List AStarM.QueueItem} {q : AStarM.QueueItem}
    {rest : List AStarM.QueueItem} (h : AStarM.popMax l = some (q, rest)) :
    ∀ p ∈ l, AStarM.qle p q = true := by
  match l with
  | [] => cases h
  | x :: xs =>
    have hq : q = AStarM.maxItem x xs := by
      simp only [AStarM.popMax] at h
      exact (Prod.mk.injEq .. ▸ (Option.some.injEq .. ▸ h :)).1.symm
    intro p hp
    rcases List.mem_cons.mp hp with rfl | hp
    · exact hq ▸ (maxItem_ge xs p).1
    · exact hq ▸ (maxItem_ge xs x).2 p hp

/-!
Claim theorems.
-/

/-- C2: the claim states that `vec(from, to)` yields LEFT when from.x > to.x
and RIGHT when from.x < to.x (and UP when from.y > to.y, DOWN when
from.y < to.y).  Counterexample: from (0,0) to (1,0) has from.x < to.x, so the
claim demands the horizontal flag RIGHT, but the code returns LEFT. -/
theorem C2_counterexample :
    Dir.vec (0, 0) (1, 0) = Dir.LEFT ∧ Dir.vec (0, 0) (1, 0) ≠ Dir.RIGHT := by
  decide

/-- C2 amended: `vec(from, to)` is the union of a horizontal flag that is
RIGHT when from.x > to.x, LEFT when from.x < to.x, absent when equal, and a
vertical flag that is DOWN when from.y > to.y, UP when from.y < to.y, absent
when equal; in particular `vec(p, p)` is the empty direction set. -/
theorem C2_amended : (∀ f t : Nat × Nat, Dir.vec f t = vecAmendedSpec f t) ∧
    (∀ p : Nat × Nat, Dir.vec p p = Dir.NONE) := by
  constructor
  · intro f t
    rcases f with ⟨fx, fy⟩
    rcases t with ⟨tx, ty⟩
    simp only [Dir.vec, vecAmendedSpec]
    rcases Nat.lt_trichotomy fx tx with hx | hx | hx <;>
      rcases Nat.lt_trichotomy fy ty with hy | hy | hy <;>
        simp [hx, hy, Nat.lt_asymm, Nat.lt_irrefl, gt_iff_lt]
  · intro p
    simp [Dir.vec, Dir.NONE]
    rfl

/-- C3: the claim states the field lookup returns Wall for every coordinate
outside the rectangle.  On the 2 by 2 maze `c3maze`, the coordinate (2, 0)
lies outside the rectangle, yet its flattened index equals the index of the
in-range cell (0, 1) and the lookup returns that cell (Empty), not Wall —
contradicting the source comments that any out-of-range coordinate resolves
to Wall by default.  The second half of the claim holds and is included as
the final conjunct: every lookup is total, yielding either Wall or an element
of the backing array — never an out-of-bounds access or a panic. -/
theorem C3_wraparound_breaks_wall_default :
    ((2 : Nat) ≥ c3maze.w ∧
      c3maze.maze.length = 2 * 2 ∧
      c3maze.idx 2 0 = c3maze.idx 0 1 ∧
      c3maze.field 2 0 = Field.Empty ∧
      c3maze.field 2 0 ≠ Field.Wall) ∧
    ∀ (m : Maze) (x y : Nat),
      m.field x y = Field.Wall ∨
        ∃ h2 : m.idx x y < m.maze.length, m.field x y = m.maze.get ⟨m.idx x y, h2⟩ := by
  constructor
  · decide
  · intro m x y
    rcases hg : m.maze.get? (m.idx x y) with _ | f
    · left
      rw [Maze.field, hg]
      rfl
    · right
      rcases List.get?_eq_some.mp hg with ⟨hlt, hget⟩
      refine ⟨hlt, ?_⟩
      rw [Maze.field, hg, hget]
      rfl

/-- C4: the claim states that among equal-cost entries the one with the
lowest index is popped first.  The heap is a max-heap on `(Reverse cost,
idx)`, so among equal costs the largest index wins: popping from the
two-element queue with cost 5 and indices 1 and 2 returns index 2. -/
theorem C4_counterexample :
    AStarM.popMax [⟨5, 1⟩, ⟨5, 2⟩] = some (⟨5, 2⟩, [⟨5, 1⟩]) ∧
      (⟨5, 2⟩ : AStarM.QueueItem) ≠ ⟨5, 1⟩ := by
  decide

/-- C4 amended: among all entries present in the heap, the entry with the
numerically lowest priority cost is popped first, and when two entries have
equal cost the one with the HIGHEST index is popped first. -/
theorem C4_amended :
    ∀ (l : List AStarM.QueueItem) (q : AStarM.QueueItem) (rest : List AStarM.QueueItem),
      AStarM.popMax l = some (q, rest) →
      ∀ p ∈ l, q.cost ≤ p.cost ∧ (p.cost = q.cost → p.idx ≤ q.idx) := by
  intro l q rest h p hp
  have := popMax_ge h p hp
  rw [qle_iff] at this
  omega

/-- C4 amended, witnessed at the concrete two-element queue of the
counterexample. -/
theorem C4_witness :
    AStarM.popMax [⟨5, 1⟩, ⟨5, 2⟩] = some (⟨5, 2⟩, [⟨5, 1⟩]) ∧
      ((5 : Nat) ≤ 5 ∧ ((5 : Nat) = 5 → (1 : Nat) ≤ 2)) :=
  ⟨by decide, C4_amended [⟨5, 1⟩, ⟨5, 2⟩] ⟨5, 2⟩ [⟨5, 1⟩] (by decide) ⟨5, 1⟩ (by decide)⟩

/-- C8: the claim states the priority solver's main loop terminates on every
finite input grid.  On `pingMaze` the loop never terminates: the two adjacent
equal-cost cells re-enqueue each other forever through the equal-cost tie
branch, so the loop returns for no amount of fuel. -/
theorem C8_astar_diverges : ∀ fuel, AStarM.astar fuel pingMaze 0 1 = none := by
  have h1 : AStarM.step (AStarM.new pingMaze 0 1) = AStarM.StepRes.cont pingS1 := by decide
  have h2 : AStarM.step pingS1 = AStarM.StepRes.cont (AStarM.new pingMaze 0 1) := by decide
  have key : ∀ n, AStarM.run n (AStarM.new pingMaze 0 1) = none ∧ AStarM.run n pingS1 = none := by
    intro n
    induction n with
    | zero => exact ⟨rfl, rfl⟩
    | succ n ih => exact ⟨(run_cont h1 n).trans ih.2, (run_cont h2 n).trans ih.1⟩
  intro fuel
  exact (key fuel).1

/-- C10: for every input accepted by the entry point (the parsed maze has a
backing cell for coordinate (0, 1)), the grid handed to the solver carries
`Calculated(ANY, 0)` at coordinate (0, 1), whatever the input character for
that cell was, and the entry point is exactly: run the calculator on that
seeded grid towards (x-1, y-2) and classify the field found there. -/
theorem C10_entry_seeded :
    ∀ (x y : Nat) (input : List (List Char)) (p : Maze),
      Maze.from_input x y input = some p →
      p.idx 0 1 < p.maze.length →
      ∃ m, seededMaze x y input = some m ∧
        m.field 0 1 = Field.Calculated Dir.ANY 0 ∧
        m.w = p.w ∧
        (∀ i, i ≠ p.idx 0 1 → m.maze.get? i = p.maze.get? i) ∧
        ∀ calculator, maze_main x y input calculator =
          some (match (calculator m (x - 1) (y - 2)).field (x - 1) (y - 2) with
                | Field.Empty => Output.unreachable
                | Field.Wall => Output.invalid
                | Field.Calculated _ c => Output.cost c) := by
  intro x y input p hp hidx
  refine ⟨⟨p.maze.set (p.idx 0 1) (Field.Calculated Dir.ANY 0), p.w⟩, ?_, ?_, rfl, ?_, ?_⟩
  · simp [seededMaze, hp, hidx]
  · have hw : (⟨p.maze.set (p.idx 0 1) (Field.Calculated Dir.ANY 0), p.w⟩ : Maze).idx 0 1
        = p.idx 0 1 := rfl
    simp only [Maze.field, hw]
    rw [List.get?_set_eq]
    rw [(List.get?_eq_some.mpr ⟨hidx, rfl⟩ : p.maze.get? (p.idx 0 1) = some _)]
    rfl
  · intro i hi
    exact List.get?_set_ne _ _ (fun h => hi h.symm)
  · intro calculator
    simp [maze_main, seededMaze, hp, hidx]

/-- C10, witnessed on a 2 by 2 all-wall input: the character at cell (0, 1)
is 0 (Wall), and the seeded grid still carries Calculated(ANY, 0) there. -/
theorem C10_witness :
    ∃ m, seededMaze 2 2 [['0', '0'], ['0', '0']] = some m ∧
      m.field 0 1 = Field.Calculated Dir.ANY 0 ∧
      m.w = (⟨[Field.Wall, Field.Wall, Field.Wall, Field.Wall], 2⟩ : Maze).w ∧
      (∀ i, i ≠ (⟨[Field.Wall, Field.Wall, Field.Wall, Field.Wall], 2⟩ : Maze).idx 0 1 →
        m.maze.get? i = (⟨[Field.Wall, Field.Wall, Field.Wall, Field.Wall], 2⟩ : Maze).maze.get? i) ∧
      ∀ calculator, maze_main 2 2 [['0', '0'], ['0', '0']] calculator =
        some (match (calculator m (2 - 1) (2 - 2)).field (2 - 1) (2 - 2) with
              | Field.Empty => Output.unreachable
              | Field.Wall => Output.invalid
              | Field.Calculated _ c => Output.cost c) :=
  C10_entry_seeded 2 2 [['0', '0'], ['0', '0']]
    ⟨[Field.Wall, Field.Wall, Field.Wall, Field.Wall], 2⟩ (by decide) (by decide)

/-- The minimum fold over a list of changed costs, once started from a value,
always yields a value. -/
theorem minChanged_aux (xs : List Nat) : ∀ (b : Nat), ∃ v,
    xs.foldl (fun acc c => match acc with | none => some c | some b2 => some (min b2 c))
      (some b) = some v := by
  induction xs with
  | nil => intro b; exact ⟨b, rfl⟩
  | cons c cs ih => intro b; simpa using ih (min b c)

/-- The minimum over the recorded changes is absent exactly when no change
was recorded. -/
theorem minChanged_eq_none (l : List (Option Nat)) :
    Flood.minChanged l = none ↔ ∀ u ∈ l, u = none := by
  rcases hfm : l.filterMap id with _ | ⟨c, cs⟩
  · constructor
    · intro _ u hu
      simpa using List.filterMap_eq_nil.mp hfm u hu
    · intro _
      simp [Flood.minChanged, hfm]
  · rcases minChanged_aux cs c with ⟨v, hv⟩
    have hne : Flood.minChanged l = some v := by
      simpa [Flood.minChanged, hfm] using hv
    constructor
    · intro h
      rw [h] at hne
      cases hne
    · intro h
      have hc : c ∈ l.filterMap id := by
        rw [hfm]; exact List.mem_cons_self c cs
      rcases List.mem_filterMap.mp hc with ⟨a, ha, hae⟩
      have : a = some c := by simpa using hae
      rw [this] at ha
      cases h (some c) ha

/-- C7: the stop predicate of the flood loop holds exactly when either no
cell changed in the last iteration, or the minimum changed-to cost of that
iteration is at least the cost currently recorded at the (Calculated) target
cell; and one trip of the loop iterates exactly when the predicate fails. -/
theorem C7_flood_stop_predicate :
    (∀ (exitF : Field) (updates : List (Option Nat)),
      Flood.is_done exitF updates = true ↔
        ((∀ u ∈ updates, u = none) ∨
          ∃ b, Flood.minChanged updates = some b ∧
            ∃ d c, exitF = Field.Calculated d c ∧ c ≤ b)) ∧
    (∀ (x y fuel : Nat) (m : Maze) (upd : List (Option Nat)),
      Flood.floodLoop x y (fuel + 1) m upd =
        if Flood.is_done (m.field x y) upd then some m
        else Flood.floodLoop x y fuel ⟨(Flood.iteration m).1, m.w⟩ (Flood.iteration m).2) := by
  constructor
  · intro exitF updates
    rcases hmc : Flood.minChanged updates with _ | b
    · simp only [Flood.is_done, hmc]
      constructor
      · intro _
        exact Or.inl ((minChanged_eq_none updates).mp hmc)
      · intro _
        trivial
    · cases exitF with
      | Empty =>
        simp only [Flood.is_done, hmc]
        constructor
        · intro h
          cases h
        · rintro (h | ⟨b2, _, d, c, hec, _⟩)
          · rw [(minChanged_eq_none updates).mpr h] at hmc; cases hmc
          · cases hec
      | Wall =>
        simp only [Flood.is_done, hmc]
        constructor
        · intro h
          cases h
        · rintro (h | ⟨b2, _, d, c, hec, _⟩)
          · rw [(minChanged_eq_none updates).mpr h] at hmc; cases hmc
          · cases hec
      | Calculated d c =>
        simp only [Flood.is_done, hmc, decide_eq_true_eq]
        constructor
        · intro h
          exact Or.inr ⟨b, rfl, d, c, rfl, h⟩
        · rintro (h | ⟨b2, hb2, d2, c2, hec, hle⟩)
          · rw [(minChanged_eq_none updates).mpr h] at hmc; cases hmc
          · cases hb2
            cases hec
            exact hle
  · intro x y fuel m upd
    rfl

/-- C1: the claim states the two solvers leave the same cost in the target
cell of every maze with a path from the seeded entry to the target.  On the
maze built from `c1rows` (entry (0, 1) seeded by `maze::main`, exit (4, 2),
with a genuine corridor between them), the flood solver reports cost 1 — it
propagates through the row wrap-around of the index arithmetic — while the
priority solver reports cost 2. -/
theorem C1_solvers_disagree :
    seededMaze 5 4 c1rows = some c1maze ∧
    hasPath c1maze (0, 1) (4, 2) = true ∧
    (Flood.flood 10 c1maze 4 2).map (fun m => m.field 4 2) = some (Field.Calculated Dir.UP 1) ∧
    (AStarM.astar 100 c1maze 4 2).map (fun m => m.field 4 2) = some (Field.Calculated Dir.LEFT 2) ∧
    (1 : Nat) ≠ 2 := by
  exact ⟨by decide, by decide, by decide, by decide, by decide⟩

/-- C6: the claim states that after one flood iteration a Calculated cell is
unchanged, or strictly cheaper, or equally expensive with a superset of its
direction set.  On `c6maze` the cell at index 1 holds Calculated({UP,DOWN}, 3)
and the iteration overwrites it with Calculated({UP}, 3): the cost is equal
but the direction set strictly shrinks, which is none of the three allowed
outcomes. -/
theorem C6_counterexample :
    c6maze.maze.get? 1 = some (Field.Calculated (Dir.UP ||| Dir.DOWN) 3) ∧
    ((Flood.iteration c6maze).1).get? 1 = some (Field.Calculated Dir.UP 3) ∧
    Field.Calculated Dir.UP 3 ≠ Field.Calculated (Dir.UP ||| Dir.DOWN) 3 ∧
    ¬ (3 : Nat) < 3 ∧
    Dir.has_all Dir.UP (Dir.UP ||| Dir.DOWN) = false := by
  decide

/-- Direction sets are determined by their bit representation. -/
theorem dir_eq_of_bits : ∀ {a b : Dir}, a.bits = b.bits → a = b := by
  intro a b h
  cases a
  cases b
  cases h
  rfl

/-- Bitwise fact: the union with a word, masked by that word, is the word. -/
theorem nat_or_and_self (a b : Nat) : (a ||| b) &&& b = b := by
  apply Nat.eq_of_testBit_eq
  intro i
  rw [Nat.testBit_and, Nat.testBit_or]
  cases Nat.testBit a i <;> cases Nat.testBit b i <;> rfl

/-- Bitwise fact: when a union with a word collapses to that word, the other
operand is contained in it. -/
theorem nat_and_of_or_eq {a b : Nat} (h : a ||| b = b) : b &&& a = a := by
  apply Nat.eq_of_testBit_eq
  intro i
  have hh := congrArg (fun n => Nat.testBit n i) h
  simp only [Nat.testBit_or] at hh
  rw [Nat.testBit_and]
  cases ha : Nat.testBit a i <;> cases hb : Nat.testBit b i <;> simp_all

/-- Mutual containment of direction sets is equality. -/
theorem has_all_antisymm {a b : Dir} (hab : a.has_all b = true)
    (hba : b.has_all a = true) : a = b := by
  have h1 : a.bits &&& b.bits = b.bits := by simpa [Dir.has_all] using hab
  have h2 : b.bits &&& a.bits = a.bits := by simpa [Dir.has_all] using hba
  apply dir_eq_of_bits
  calc a.bits = b.bits &&& a.bits := h2.symm
    _ = a.bits &&& b.bits := Nat.and_comm _ _
    _ = b.bits := h1

/-- C6 amended: after one flood iteration, a cell that was Calculated(dirs,
cost) is still Calculated (it never reverts to Empty) and its cost never
increases.  When the recomputed candidate has no direction the cell is
untouched and not marked changed.  When the recomputed candidate (udir, ucost)
has ucost equal to the old cost, the new cost is unchanged and: if udir adds
flags missing from dirs, the stored set becomes the union of udir and dirs and
the cell is marked changed; otherwise the stored set is replaced by udir (a
subset of dirs, possibly proper) and the cell is not marked changed.  In
particular, at equal cost the stored set strictly extends dirs exactly when
the cell is marked changed. -/
theorem C6_amended :
    ∀ (m : Maze) (i : Nat) (d : Dir) (c : Nat),
      m.maze.get? i = some (Field.Calculated d c) →
      ∃ d2 c2,
        ((Flood.iteration m).1).get? i = some (Field.Calculated d2 c2) ∧
        ((Flood.iteration m).2).get? i = some (Flood.cell_update m i).2 ∧
        c2 ≤ c ∧
        ((Flood.update_field m i).1 = Dir.NONE →
          d2 = d ∧ c2 = c ∧ (Flood.cell_update m i).2 = none) ∧
        ((Flood.update_field m i).1 ≠ Dir.NONE → (Flood.update_field m i).2 = c →
          c2 = c ∧
          (d.has_all (Flood.update_field m i).1 = false →
            d2 = (Flood.update_field m i).1 ||| d ∧ (Flood.cell_update m i).2 = some c) ∧
          (d.has_all (Flood.update_field m i).1 = true →
            d2 = (Flood.update_field m i).1 ∧ (Flood.cell_update m i).2 = none) ∧
          ((Flood.cell_update m i).2 ≠ none ↔ (d2.has_all d = true ∧ d2 ≠ d))) := by
  intro m i d c hget
  have hi : i < m.maze.length := by
    rcases List.get?_eq_some.mp hget with ⟨h, _⟩
    exact h
  have hout : ((Flood.iteration m).1).get? i = some (Flood.cell_update m i).1 := by
    rw [show (Flood.iteration m).1
        = (List.range m.maze.length).map (fun j => (Flood.cell_update m j).1) from rfl,
      List.get?_map, List.get?_range hi]
    rfl
  have hupd : ((Flood.iteration m).2).get? i = some (Flood.cell_update m i).2 := by
    rw [show (Flood.iteration m).2
        = (List.range m.maze.length).map (fun j => (Flood.cell_update m j).2) from rfl,
      List.get?_map, List.get?_range hi]
    rfl
  by_cases h1 : (Flood.update_field m i).1 = Dir.NONE
  · have hcu : Flood.cell_update m i = (Field.Calculated d c, none) := by
      rw [Flood.cell_update, hget]
      simp [Flood.apply_update, h1]
    exact ⟨d, c, by rw [hout, hcu], hupd, le_refl c,
      fun _ => ⟨rfl, rfl, by rw [hcu]⟩, fun h1' => absurd h1 h1'⟩
  · by_cases h2 : (Flood.update_field m i).2 = c
    · by_cases h3 : d.has_all (Flood.update_field m i).1 = true
      · have hcu : Flood.cell_update m i
            = (Field.Calculated (Flood.update_field m i).1 c, none) := by
          rw [Flood.cell_update, hget]
          simp [Flood.apply_update, h1, h2, h3]
        refine ⟨(Flood.update_field m i).1, c, by rw [hout, hcu], hupd, le_refl c,
          fun h1' => absurd h1' h1, fun _ _ => ⟨rfl, ?_, fun _ => ⟨rfl, by rw [hcu]⟩, ?_⟩⟩
        · intro h3f
          rw [h3] at h3f
          cases h3f
        · rw [hcu]
          constructor
          · intro hne
            exact absurd rfl hne
          · rintro ⟨hsup, hne⟩
            exact absurd (has_all_antisymm hsup h3) hne
      · have h3f : d.has_all (Flood.update_field m i).1 = false := by
          simpa using h3
        have hcu : Flood.cell_update m i
            = (Field.Calculated ((Flood.update_field m i).1 ||| d) c, some c) := by
          rw [Flood.cell_update, hget]
          simp [Flood.apply_update, h1, h2, h3f]
        refine ⟨(Flood.update_field m i).1 ||| d, c, by rw [hout, hcu], hupd, le_refl c,
          fun h1' => absurd h1' h1, fun _ _ => ⟨rfl, fun _ => ⟨rfl, by rw [hcu]⟩, ?_, ?_⟩⟩
        · intro h3t
          rw [h3f] at h3t
          cases h3t
        · rw [hcu]
          constructor
          · intro _
            constructor
            · have hself := nat_or_and_self (Flood.update_field m i).1.bits d.bits
              simp only [Dir.has_all, decide_eq_true_eq]
              exact hself
            · intro heq
              have hb : d.bits &&& (Flood.update_field m i).1.bits
                  = (Flood.update_field m i).1.bits :=
                nat_and_of_or_eq (a := (Flood.update_field m i).1.bits) (b := d.bits)
                  (congrArg Dir.bits heq)
              have hha : d.has_all (Flood.update_field m i).1 = true := by
                simp only [Dir.has_all, decide_eq_true_eq]
                exact hb
              rw [h3f] at hha
              cases hha
          · intro _
            simp
    · by_cases h4 : (Flood.update_field m i).2 < c
      · have hcu : Flood.cell_update m i
            = (Field.Calculated (Flood.update_field m i).1 (Flood.update_field m i).2,
               some (Flood.update_field m i).2) := by
          rw [Flood.cell_update, hget]
          simp [Flood.apply_update, h1, h2, h4]
        exact ⟨(Flood.update_field m i).1, (Flood.update_field m i).2, by rw [hout, hcu],
          hupd, le_of_lt h4, fun h1' => absurd h1' h1, fun _ h2' => absurd h2' h2⟩
      · have hcu : Flood.cell_update m i = (Field.Calculated d c, none) := by
          rw [Flood.cell_update, hget]
          simp [Flood.apply_update, h1, h2, h4]
        exact ⟨d, c, by rw [hout, hcu], hupd, le_refl c,
          fun h1' => absurd h1' h1, fun _ h2' => absurd h2' h2⟩

/-- C6 amended, witnessed at cell 0 of the counterexample grid, where the
recomputed equal-cost candidate adds the DOWN flag: the cell is marked changed
and the stored set strictly extends the old one. -/
theorem C6_witness :
    ∃ d2 c2, ((Flood.iteration c6maze).1).get? 0 = some (Field.Calculated d2 c2) ∧
      ((Flood.iteration c6maze).2).get? 0 = some (Flood.cell_update c6maze 0).2 ∧
      c2 ≤ 3 := by
  rcases C6_amended c6maze 0 Dir.UP 3 (by decide) with ⟨d2, c2, hcell, hchg, hle, _⟩
  exact ⟨d2, c2, hcell, hchg, hle⟩

/-- Wall cells are untouched by one flood iteration. -/
theorem iteration_wall {m : Maze} {i : Nat} (h : m.maze.get? i = some Field.Wall) :
    ((Flood.iteration m).1).get? i = some Field.Wall := by
  have hi : i < m.maze.length := by
    rcases List.get?_eq_some.mp h with ⟨hl, _⟩
    exact hl
  have hout : ((Flood.iteration m).1).get? i = some (Flood.cell_update m i).1 := by
    rw [show (Flood.iteration m).1
        = (List.range m.maze.length).map (fun j => (Flood.cell_update m j).1) from rfl,
      List.get?_map, List.get?_range hi]
    rfl
  have hupd : Flood.update_field m i = (Dir.NONE, 0) := by
    unfold Flood.update_field
    rw [h]
    simp
  rw [hout, Flood.cell_update, hupd, h]
  rfl

/-- Wall cells are untouched by the whole flood loop. -/
theorem floodLoop_wall :
    ∀ (fuel x y : Nat) (m : Maze) (upd : List (Option Nat)) (m2 : Maze),
      Flood.floodLoop x y fuel m upd = some m2 →
      ∀ i, m.maze.get? i = some Field.Wall → m2.maze.get? i = some Field.Wall := by
  intro fuel
  induction fuel with
  | zero =>
    intro x y m upd m2 h i hi
    by_cases hd : Flood.is_done (m.field x y) upd = true
    · simp [Flood.floodLoop, hd] at h
      rw [← h]
      exact hi
    · simp [Flood.floodLoop, hd] at h
  | succ n ih =>
    intro x y m upd m2 h i hi
    by_cases hd : Flood.is_done (m.field x y) upd = true
    · simp [Flood.floodLoop, hd] at h
      rw [← h]
      exact hi
    · simp only [Flood.floodLoop, hd, Bool.false_eq_true, if_false] at h
      exact ih x y _ _ m2 h i (iteration_wall hi)

/-- The maze of a state is unchanged by `enqueue`. -/
theorem enqueue_maze (s : AStarM.AState) (i : Nat) : (AStarM.enqueue s i).maze = s.maze := by
  unfold AStarM.enqueue
  split <;> rfl

/-- Wall cells are untouched by the relaxation of one direction pair. -/
theorem relax_wall (fld : Field) (i : Nat) (s : AStarM.AState) (p : Dir × Dir) (j : Nat)
    (h : s.maze.maze.get? j = some Field.Wall) :
    (AStarM.relax fld i s p).maze.maze.get? j = some Field.Wall := by
  cases fld with
  | Empty => exact h
  | Wall => exact h
  | Calculated dir cost =>
    simp only [AStarM.relax]
    split
    · next d pcost hn =>
      have hnej : s.maze.in_dir_idx i p.2 ≠ j := by
        intro he
        rw [he, h] at hn
        cases hn
      split <;>
        first
        | exact h
        | (rw [enqueue_maze]; exact (List.get?_set_ne _ _ hnej).trans h)
        | (split <;>
            first
            | exact h
            | (rw [enqueue_maze]; exact (List.get?_set_ne _ _ hnej).trans h)
            | (split <;>
                first
                | exact h
                | (rw [enqueue_maze]; exact (List.get?_set_ne _ _ hnej).trans h)))
    · next hn =>
      have hnej : s.maze.in_dir_idx i p.2 ≠ j := by
        intro he
        rw [he, h] at hn
        cases hn
      rw [enqueue_maze]
      exact (List.get?_set_ne _ _ hnej).trans h
    · exact h

/-- Wall cells are untouched by relaxing a list of direction pairs. -/
theorem relaxList_wall :
    ∀ (ps : List (Dir × Dir)) (fld : Field) (i : Nat) (s : AStarM.AState) (j : Nat),
      s.maze.maze.get? j = some Field.Wall →
      (ps.foldl (AStarM.relax fld i) s).maze.maze.get? j = some Field.Wall := by
  intro ps
  induction ps with
  | nil => intro fld i s j h; exact h
  | cons p ps ih =>
    intro fld i s j h
    exact ih fld i _ j (relax_wall fld i s p j h)

/-- Wall cells are untouched when one trip of the priority solver loop
finishes. -/
theorem step_wall_done (s : AStarM.AState) (m : Maze)
    (hs : AStarM.step s = AStarM.StepRes.done m) (j : Nat)
    (h : s.maze.maze.get? j = some Field.Wall) : m.maze.get? j = some Field.Wall := by
  unfold AStarM.step at hs
  rcases hp : AStarM.popMax s.queue with _ | ⟨q, rest⟩
  · rw [hp] at hs
    cases hs
    exact h
  · rw [hp] at hs
    simp only [] at hs
    set s2 := List.foldl (AStarM.relax ((s.maze.maze.get? q.idx).getD Field.Wall) q.idx)
        { s with queue := rest }
        [(Dir.LEFT, Dir.RIGHT), (Dir.RIGHT, Dir.LEFT), (Dir.UP, Dir.DOWN), (Dir.DOWN, Dir.UP)]
      with hs2
    have hw : s2.maze.maze.get? j = some Field.Wall := by
      rw [hs2]
      exact relaxList_wall
        [(Dir.LEFT, Dir.RIGHT), (Dir.RIGHT, Dir.LEFT), (Dir.UP, Dir.DOWN), (Dir.DOWN, Dir.UP)]
        ((s.maze.maze.get? q.idx).getD Field.Wall) q.idx { s with queue := rest } j h
    rcases hf : s2.maze.field s2.exit.1 s2.exit.2 with _ | _ | ⟨d, c⟩
    · simp [hf] at hs
    · simp [hf] at hs
    · simp [hf] at hs
      rw [← hs]
      exact hw

/-- Wall cells are untouched when one trip of the priority solver loop
continues. -/
theorem step_wall_cont (s s2 : AStarM.AState)
    (hs : AStarM.step s = AStarM.StepRes.cont s2) (j : Nat)
    (h : s.maze.maze.get? j = some Field.Wall) : s2.maze.maze.get? j = some Field.Wall := by
  unfold AStarM.step at hs
  rcases hp : AStarM.popMax s.queue with _ | ⟨q, rest⟩
  · rw [hp] at hs
    cases hs
  · rw [hp] at hs
    simp only [] at hs
    set s3 := List.foldl (AStarM.relax ((s.maze.maze.get? q.idx).getD Field.Wall) q.idx)
        { s with queue := rest }
        [(Dir.LEFT, Dir.RIGHT), (Dir.RIGHT, Dir.LEFT), (Dir.UP, Dir.DOWN), (Dir.DOWN, Dir.UP)]
      with hs3
    have hw : s3.maze.maze.get? j = some Field.Wall := by
      rw [hs3]
      exact relaxList_wall
        [(Dir.LEFT, Dir.RIGHT), (Dir.RIGHT, Dir.LEFT), (Dir.UP, Dir.DOWN), (Dir.DOWN, Dir.UP)]
        ((s.maze.maze.get? q.idx).getD Field.Wall) q.idx { s with queue := rest } j h
    rcases hf : s3.maze.field s3.exit.1 s3.exit.2 with _ | _ | ⟨d, c⟩
    · simp [hf] at hs
      rw [← hs]
      exact hw
    · simp [hf] at hs
      rw [← hs]
      exact hw
    · simp [hf] at hs

/-- Wall cells are untouched by the whole priority solver loop. -/
theorem run_wall :
    ∀ (fuel : Nat) (s : AStarM.AState) (m2 : Maze),
      AStarM.run fuel s = some m2 →
      ∀ j, s.maze.maze.get? j = some Field.Wall → m2.maze.get? j = some Field.Wall := by
  intro fuel
  induction fuel with
  | zero => intro s m2 h; cases h
  | succ n ih =>
    intro s m2 h j hj
    rw [AStarM.run] at h
    rcases hst : AStarM.step s with m | s2
    · rw [hst] at h
      cases h
      exact step_wall_done s m2 hst j hj
    · rw [hst] at h
      exact ih s2 m2 h j (step_wall_cont s s2 hst j hj)

/-- C9: Wall cells are immutable under both solvers: every index holding Wall
in the input grid still holds Wall in the grid either solver returns. -/
theorem C9_walls_immutable :
    (∀ (fuel : Nat) (m : Maze) (x y : Nat) (m2 : Maze),
      Flood.flood fuel m x y = some m2 →
      ∀ i, m.maze.get? i = some Field.Wall → m2.maze.get? i = some Field.Wall) ∧
    (∀ (fuel : Nat) (m : Maze) (x y : Nat) (m2 : Maze),
      AStarM.astar fuel m x y = some m2 →
      ∀ i, m.maze.get? i = some Field.Wall → m2.maze.get? i = some Field.Wall) := by
  constructor
  · intro fuel m x y m2 h i hw
    exact floodLoop_wall fuel x y m _ m2 h i hw
  · intro fuel m x y m2 h i hw
    exact run_wall fuel (AStarM.new m x y) m2 h i hw

/-- C9, witnessed on concrete one-cell and two-cell grids. -/
theorem C9_witness :
    (⟨[Field.Wall], 1⟩ : Maze).maze.get? 0 = some Field.Wall ∧
    (⟨[Field.Wall, Field.Empty], 2⟩ : Maze).maze.get? 0 = some Field.Wall :=
  ⟨C9_walls_immutable.1 1 ⟨[Field.Wall], 1⟩ 0 0 ⟨[Field.Wall], 1⟩ (by decide) 0 (by decide),
   C9_walls_immutable.2 1 ⟨[Field.Wall, Field.Empty], 2⟩ 0 0 ⟨[Field.Wall, Field.Empty], 2⟩
     (by decide) 0 (by decide)⟩

/-- Length of a successful mapM over Option. -/
theorem mapM_length {α β : Type} (f : α → Option β) :
    ∀ (l : List α) (l2 : List β), l.mapM f = some l2 → l2.length = l.length := by
  intro l
  induction l with
  | nil =>
    intro l2 h
    simp only [List.mapM_nil] at h
    cases h
    rfl
  | cons a as ih =>
    intro l2 h
    rw [List.mapM_cons] at h
    rcases hfa : f a with _ | b <;> rw [hfa] at h
    · cases h
    · rcases hrec : as.mapM f with _ | bs <;> rw [hrec] at h
      · cases h
      · cases h
        simp [ih bs hrec]

/-- Elementwise description of a successful mapM over Option. -/
theorem mapM_get? {α β : Type} (f : α → Option β) :
    ∀ (l : List α) (l2 : List β), l.mapM f = some l2 →
      ∀ i, l2.get? i = (l.get? i).bind f := by
  intro l
  induction l with
  | nil =>
    intro l2 h i
    simp only [List.mapM_nil] at h
    cases h
    simp
  | cons a as ih =>
    intro l2 h i
    rw [List.mapM_cons] at h
    rcases hfa : f a with _ | b <;> rw [hfa] at h
    · cases h
    · rcases hrec : as.mapM f with _ | bs <;> rw [hrec] at h
      · cases h
      · cases h
        cases i with
        | zero => simp [hfa]
        | succ i => simpa using ih bs hrec i

/-- Position lookup in the concatenation of lists of uniform length. -/
theorem flatten_get?_uniform {α : Type} (x : Nat) :
    ∀ (L : List (List α)) (r c : Nat), (∀ l ∈ L, l.length = x) → c < x →
      ∀ row, L.get? r = some row → L.flatten.get? (r * x + c) = row.get? c := by
  intro L
  induction L with
  | nil =>
    intro r c _ _ row h
    cases r <;> cases h
  | cons l0 rest ih =>
    intro r c hlen hc row hrow
    have h0 : l0.length = x := hlen l0 (by simp)
    cases r with
    | zero =>
      cases hrow
      have hlt : 0 * x + c < l0.length := by omega
      rw [show (l0 :: rest).flatten = l0 ++ rest.flatten from rfl, List.get?_append hlt]
      congr 1
      omega
    | succ r =>
      have e1 : (r + 1) * x + c = l0.length + (r * x + c) := by rw [h0]; ring
      rw [show (l0 :: rest).flatten = l0 ++ rest.flatten from rfl, e1,
        List.get?_append_right (by omega)]
      have e2 : l0.length + (r * x + c) - l0.length = r * x + c := by omega
      rw [e2]
      exact ih r c (fun l hl => hlen l (List.mem_cons_of_mem _ hl)) hc row hrow

/-- C5: the claim states the builder ignores trailing characters beyond the
first width characters of each line and always yields an array of length
width*height.  The code concatenates every character of the consumed lines:
for width 1, height 1 and the single line 10, the array has length 2 — the
trailing 0 becomes a stored Wall cell instead of being ignored. -/
theorem C5_counterexample :
    Maze.from_input 1 1 [['1', '0']] = some ⟨[Field.Empty, Field.Wall], 1⟩ ∧
      (Maze.from_input 1 1 [['1', '0']]).map (fun m => m.maze.length) = some 2 ∧
      (2 : Nat) ≠ 1 * 1 := by
  decide

/-- C5 amended: the builder consumes at most height lines and maps every
character of each consumed line 1:1 in order (0 to Wall, 1 to Empty, anything
else fatal), so the flat array is the concatenation of the consumed lines'
cells; only when exactly height lines of exactly width characters are supplied
does the array have length width*height with cell (c, r) the parse of
character c of row r. -/
theorem C5_amended :
    ∀ (x y : Nat) (input : List (List Char)) (m : Maze),
      Maze.from_input x y input = some m →
      (m.w = x ∧ m.maze.length = ((input.take y).map List.length).sum) ∧
      ((∀ l ∈ input.take y, l.length = x) → (input.take y).length = y →
        m.maze.length = x * y ∧
        ∀ r c row ch, r < y → c < x → input.get? r = some row → row.get? c = some ch →
          m.maze.get? (r * x + c) = parseField ch) := by
  intro x y input m hm
  rcases Option.map_eq_some'.mp hm with ⟨fl, hfl, hmm⟩
  cases hmm
  refine ⟨⟨rfl, ?_⟩, ?_⟩
  · rw [show (⟨fl, x⟩ : Maze).maze = fl from rfl, mapM_length parseField _ fl hfl,
      List.length_flatten]
  · intro hwid hcnt
    have hrep : (input.take y).map List.length = List.replicate y x := by
      apply List.eq_replicate.mpr
      constructor
      · simpa using hcnt
      · intro b hb
        rcases List.mem_map.mp hb with ⟨l, hl, rfl⟩
        exact hwid l hl
    constructor
    · rw [show (⟨fl, x⟩ : Maze).maze = fl from rfl, mapM_length parseField _ fl hfl,
        List.length_flatten, hrep, List.sum_replicate, smul_eq_mul]
      exact Nat.mul_comm y x
    · intro r c row ch hr hc hrow hch
      have htake : (input.take y).get? r = some row := by
        rw [List.get?_take hr]
        exact hrow
      have hflat : (input.take y).flatten.get? (r * x + c) = some ch :=
        (flatten_get?_uniform x (input.take y) r c hwid hc row htake).trans hch
      rw [show (⟨fl, x⟩ : Maze).maze = fl from rfl,
        mapM_get? parseField _ fl hfl (r * x + c), hflat]
      rfl

/-- C5 amended, witnessed on the two-character single line with width 2 and
height 1: cell (1, 0) is the parse of character 1 of row 0. -/
theorem C5_witness :
    (⟨[Field.Empty, Field.Wall], 2⟩ : Maze).maze.get? (0 * 2 + 1) = parseField '0' :=
  ((C5_amended 2 1 [['1', '0']] ⟨[Field.Empty, Field.Wall], 2⟩ (by decide)).2
    (by decide) (by decide)).2 0 1 ['1', '0'] '0' (by decide) (by decide) (by decide)
    (by decide)

end MazeSrc
